import Mathlib

/-!
Verification development for the simple-critbit repository: a crit-bit
(binary trie) ordered set over nonzero even machine-word keys, with
membership, insertion, deletion, ascending enumeration and a dedup-sort
utility.  The C code stores tagged words (even value = leaf key, odd
value = pointer to an internal node, 0 = empty root); the shallow
embedding represents a nonempty structure as an inductive tree of leaves
and internal nodes and the root reference as an `Option` (with `none`
standing for the word 0).  The word bit count `_CRITBIT_PTR_BITS` is the
parameter `W`; bit positions are counted from the most significant bit,
as in the source.
-/

namespace Critbit

/-- A reachable subtree of the tagged structure: an untagged reference is a
leaf key, a tagged reference points to a `_critbit_node` with two children
`next[0]`, `next[1]` and a `crit_bit` index. -/
inductive CTree where
  | leaf : Nat → CTree
  | node : CTree → CTree → Nat → CTree
deriving DecidableEq

/-- Precondition on keys stated in the source header: a key is a nonzero
even integer of the word type (hence below `2 ^ W`). -/
def validKey (W v : Nat) : Prop := v ≠ 0 ∧ v % 2 = 0 ∧ v < 2 ^ W

instance (W v : Nat) : Decidable (validKey W v) := by
  unfold validKey; infer_instance

/-- Embeds `_critbit_is_set`: tests the bit of `v` at position `bit` counted
from the most significant bit, i.e. `v & (1 << (W - 1 - bit))`. -/
def isSet (W v bit : Nat) : Bool := v.testBit (W - 1 - bit)

/-- In-order list of the leaf keys of a subtree.  This is both the set of
stored keys and the sequence of `visitor->callback` arguments produced by
`_critbit_visit` (and the sequence `_critbit_put_node` writes out). -/
def keys : CTree → List Nat
  | .leaf u => [u]
  | .node l r _ => keys l ++ keys r

/-- The unbounded scan loop of `_critbit_get_crit_bit`, made total with
explicit fuel: starting at index `b`, find the first bit position (from the
MSB) at which `x` has a set bit; `none` means the fuel ran out, which the
termination claim shows cannot happen on valid inputs within `W` steps. -/
def critBitSearch (W x : Nat) : Nat → Nat → Option Nat
  | 0, _ => none
  | fuel + 1, b => if isSet W x b then some b else critBitSearch W x fuel (b + 1)

/-- Embeds `_critbit_get_crit_bit` on `x = v1 ^^^ v2`: index of the first
differing bit from the MSB. -/
def getCritBit (W x : Nat) : Nat := (critBitSearch W x W 0).getD 0

/-- Embeds `_critbit_get_leaf_ptr`: descend from a subtree following the
branch index `_critbit_get_index(v, crit_bit)` at every node until an
untagged reference (a leaf) is reached. -/
def getLeaf (W : Nat) : CTree → Nat → Nat
  | .leaf u, _ => u
  | .node l r cb, v => if isSet W v cb then getLeaf W r v else getLeaf W l v

/-- Embeds `_critbit_create_node`: a fresh node with `crit_bit = b` whose
slot `_critbit_get_index(v, b)` holds the new leaf `v` and whose other slot
holds the reference `t` that occupied the splice point. -/
def mkNode (W v b : Nat) (t : CTree) : CTree :=
  if isSet W v b then .node t (.leaf v) b else .node (.leaf v) t b

/-- Embeds the second descent of `critbit_add` (`_critbit_get_node_ptr`)
followed by the splice: walk down by `v`'s bits while the node `crit_bit`
is at most `b`, and overwrite the first reference whose node has
`crit_bit > b` (or a leaf) with the new node. -/
def splice (W v b : Nat) : CTree → CTree
  | .leaf u => mkNode W v b (.leaf u)
  | .node l r cb =>
      if b < cb then mkNode W v b (.node l r cb)
      else if isSet W v cb then .node l (splice W v b r) cb
      else .node (splice W v b l) r cb

/-- Embeds `critbit_add`: empty root is replaced by the key; otherwise find
the nearest leaf, reject a duplicate, compute the critical bit of the leaf
and the key, and splice a new node at the point located by the second
descent.  Returns the C `int` result as a `Bool` together with the new
root. -/
def critbit_add (W : Nat) (root : Option CTree) (v : Nat) : Bool × Option CTree :=
  match root with
  | none => (true, some (.leaf v))
  | some t =>
      if getLeaf W t v = v then (false, some t)
      else (true, some (splice W v (getCritBit W ((getLeaf W t v) ^^^ v)) t))

/-- Embeds the descent loop of `critbit_remove` on a tagged root: follow
`v`'s branch indices; when the chosen child is a leaf, either replace the
current node by the sibling child (`_critbit_delete_node`) on a match or
fail; when the chosen child is a node, recurse and rebuild. -/
def removeGo (W v : Nat) : CTree → Bool × CTree
  | .leaf u => (false, .leaf u)
  | .node l r cb =>
      if isSet W v cb then
        match r with
        | .leaf u => if u = v then (true, l) else (false, .node l r cb)
        | .node _ _ _ => ((removeGo W v r).1, .node l (removeGo W v r).2 cb)
      else
        match l with
        | .leaf u => if u = v then (true, r) else (false, .node l r cb)
        | .node _ _ _ => ((removeGo W v l).1, .node (removeGo W v l).2 r cb)

/-- Embeds `critbit_remove`: empty root fails; an untagged root is compared
directly and cleared on a match; a tagged root is handled by the descent
loop. -/
def critbit_remove (W : Nat) (root : Option CTree) (v : Nat) : Bool × Option CTree :=
  match root with
  | none => (false, none)
  | some (.leaf u) => if u = v then (true, none) else (false, some (.leaf u))
  | some (.node l r cb) =>
      ((removeGo W v (.node l r cb)).1, some (removeGo W v (.node l r cb)).2)

/-- Embeds `critbit_contains`: empty root fails, otherwise the nearest leaf
is compared with the key. -/
def critbit_contains (W : Nat) (root : Option CTree) (v : Nat) : Bool :=
  match root with
  | none => false
  | some t => decide (getLeaf W t v = v)

/-- The root word of a freshly created crit-bit (`critbit_create` sets
`cb->root = 0`). -/
def critbit_create_root : Nat := 0

/-- The assertion `assert(v != 0)` guarding `_critbit_has_tag`. -/
def has_tag_assert (v : Nat) : Prop := v ≠ 0

/-- Embeds `critbit_foreach` (which calls `_critbit_visit` on the root word
without checking for 0): the list of keys passed to the visitor callback, in
order.  On an empty trie the root word 0 reaches `_critbit_has_tag`, whose
assertion `v != 0` fails; with assertions disabled `0 & 1 == 0`, so the word
0 is treated as an untagged leaf and the callback is invoked once with
key 0 — hence the `[0]` in the `none` case. -/
def critbit_foreach : Option CTree → List Nat
  | none => [0]
  | some t => keys t

/-- One iteration of the insertion loop of `critbit_sort`: add the element,
and decrement the result count `m` when the add rejects a duplicate. -/
def sortStep (W : Nat) (p : Option CTree × Nat) (v : Nat) : Option CTree × Nat :=
  ((critbit_add W p.1 v).2, if (critbit_add W p.1 v).1 then p.2 else p.2 - 1)

/-- Embeds `critbit_sort`: build a trie from the buffer counting duplicate
rejections, then drain it in order (`_critbit_put_node`) over the front of
the buffer.  Returns `m` and the final buffer contents (the drained output
followed by the untouched tail of the original buffer). -/
def critbit_sort (W : Nat) (a : List Nat) : Nat × List Nat :=
  ((a.foldl (sortStep W) (none, a.length)).2,
    critbit_foreach (a.foldl (sortStep W) (none, a.length)).1
      ++ a.drop (critbit_foreach (a.foldl (sortStep W) (none, a.length)).1).length)

/-- Number of internal (`_critbit_node`) nodes of a subtree. -/
def nodeCount : CTree → Nat
  | .leaf _ => 0
  | .node l r _ => nodeCount l + nodeCount r + 1

/-- Internal node count of a root reference. -/
def nodeCountOpt : Option CTree → Nat
  | none => 0
  | some t => nodeCount t

/-- Embeds `_critbit_remove_all_nodes`, counting its `free_node` calls:
both children recursively, then the node itself. -/
def removeAllFrees : CTree → Nat
  | .leaf _ => 0
  | .node l r _ => removeAllFrees l + removeAllFrees r + 1

/-- Embeds `critbit_delete`, counting `free_node` calls: the teardown walks
the structure only when the root is nonzero. -/
def teardownFrees : Option CTree → Nat
  | none => 0
  | some t => removeAllFrees t

/-- Number of `alloc_node` calls performed by one `critbit_add`:
`_critbit_create_node` runs exactly when the trie is nonempty and the
nearest leaf differs from the key. -/
def allocsOfAdd (W : Nat) (root : Option CTree) (v : Nat) : Nat :=
  match root with
  | none => 0
  | some t => if getLeaf W t v = v then 0 else 1

/-- Number of `free_node` calls performed by one `critbit_remove`:
`_critbit_delete_node` runs exactly when the descent from a tagged root
matches the key. -/
def freesOfRemove (W : Nat) (root : Option CTree) (v : Nat) : Nat :=
  match root with
  | none => 0
  | some (.leaf _) => 0
  | some (.node l r cb) => if (removeGo W v (.node l r cb)).1 then 1 else 0

/-- A mutating operation on the trie. -/
inductive Op where
  | add : Nat → Op
  | rem : Nat → Op
deriving DecidableEq

/-- State of an instrumented run: the root together with the running totals
of `alloc_node` and `free_node` calls. -/
structure TState where
  root : Option CTree
  allocs : Nat
  frees : Nat
deriving DecidableEq

/-- Executes one operation, accounting allocator calls at the exact program
points where the C code performs them. -/
def runOp (W : Nat) (s : TState) : Op → TState
  | .add v =>
      { root := (critbit_add W s.root v).2
        allocs := s.allocs + allocsOfAdd W s.root v
        frees := s.frees }
  | .rem v =>
      { root := (critbit_remove W s.root v).2
        allocs := s.allocs
        frees := s.frees + freesOfRemove W s.root v }

/-- Executes a sequence of operations starting from a freshly created trie
with zero allocator activity. -/
def runOps (W : Nat) (ops : List Op) : TState :=
  ops.foldl (runOp W) ⟨none, 0, 0⟩

/-- Counts the operations of a sequence that are adds returning 1 with a
nonempty pre-state — the inserts that produce a new divergence. -/
def countAllocAdds (W : Nat) : Option CTree → List Op → Nat
  | _, [] => 0
  | r, .add v :: ops =>
      (if r ≠ none ∧ (critbit_add W r v).1 = true then 1 else 0)
        + countAllocAdds W (critbit_add W r v).2 ops
  | r, .rem v :: ops => countAllocAdds W (critbit_remove W r v).2 ops

/-- Keys stored under a root reference (empty for the empty trie). -/
def keysOpt : Option CTree → List Nat
  | none => []
  | some t => keys t

/-- Two words agree on every bit position (from the MSB) strictly below
`b`. -/
def agreeBelow (W b x y : Nat) : Prop := ∀ j, j < b → isSet W x j = isSet W y j

/-- The structural invariant of the crit-bit trie: every leaf holds a valid
key; at every node the `crit_bit` fits the assertion `bit < W - 1` of
`_critbit_is_set`, every key under `next[0]` has a 0 bit and every key
under `next[1]` a 1 bit at `crit_bit`, and all keys of the subtree agree
on every bit position before `crit_bit`. -/
def Inv (W : Nat) : CTree → Prop
  | .leaf u => validKey W u
  | .node l r cb =>
      Inv W l ∧ Inv W r ∧ cb + 1 < W ∧
      (∀ k ∈ keys l, isSet W k cb = false) ∧
      (∀ k ∈ keys r, isSet W k cb = true) ∧
      (∀ k1 ∈ keys l ++ keys r, ∀ k2 ∈ keys l ++ keys r, agreeBelow W cb k1 k2)

/-- The invariant lifted to a root reference. -/
def InvOpt (W : Nat) : Option CTree → Prop
  | none => True
  | some t => Inv W t

/-- The child reference has a larger `crit_bit` when it is a node. -/
def cbAbove (b : Nat) : CTree → Prop
  | .leaf _ => True
  | .node _ _ cb => b < cb

/-- The invariant exactly as the specification states it: along any
root-to-leaf path the `crit_bit` values strictly increase, and every key
reachable through `next[0]` (resp. `next[1]`) has a 0 (resp. 1) at the
node's `crit_bit`. -/
def StructInv (W : Nat) : CTree → Prop
  | .leaf _ => True
  | .node l r cb =>
      cbAbove cb l ∧ cbAbove cb r ∧
      (∀ k ∈ keys l, isSet W k cb = false) ∧
      (∀ k ∈ keys r, isSet W k cb = true) ∧
      StructInv W l ∧ StructInv W r

/-- Root references reachable from a freshly created trie by interleavings
of `critbit_add` and `critbit_remove` on nonzero even word keys. -/
inductive Reachable (W : Nat) : Option CTree → Prop
  | empty : Reachable W none
  | add (root : Option CTree) (v : Nat) (h : Reachable W root) (hv : validKey W v) :
      Reachable W (critbit_add W root v).2
  | remove (root : Option CTree) (v : Nat) (h : Reachable W root) (hv : validKey W v) :
      Reachable W (critbit_remove W root v).2

/-- Height of a subtree: the number of internal nodes on the longest
root-to-leaf path, i.e. the maximal descent length. -/
def height : CTree → Nat
  | .leaf _ => 0
  | .node l r _ => max (height l) (height r) + 1

/-! Basic facts about `keys`, `getLeaf` and the invariant. -/

lemma keys_leaf (u : Nat) : keys (CTree.leaf u) = [u] := rfl

lemma keys_node (l r : CTree) (cb : Nat) :
    keys (CTree.node l r cb) = keys l ++ keys r := rfl

lemma keys_ne_nil : ∀ t : CTree, keys t ≠ []
  | .leaf _ => by simp [keys]
  | .node l r _ => by
      simp only [keys]
      intro h
      exact keys_ne_nil l (List.append_eq_nil.mp h).1

lemma getLeaf_mem (W : Nat) : ∀ (t : CTree) (v : Nat), getLeaf W t v ∈ keys t
  | .leaf _, _ => by simp [getLeaf, keys]
  | .node l r cb, v => by
      simp only [getLeaf, keys, List.mem_append]
      by_cases h : isSet W v cb
      · exact Or.inr (by simpa [h] using getLeaf_mem W r v)
      · exact Or.inl (by simpa [h] using getLeaf_mem W l v)

lemma valid_of_mem (W : Nat) :
    ∀ t : CTree, Inv W t → ∀ k ∈ keys t, validKey W k
  | .leaf _, h, k, hk => by
      simp only [keys, List.mem_singleton] at hk
      subst hk; exact h
  | .node l r cb, h, k, hk => by
      obtain ⟨hl, hr, -, -, -, -⟩ := h
      rcases List.mem_append.mp hk with h1 | h1
      · exact valid_of_mem W l hl k h1
      · exact valid_of_mem W r hr k h1

lemma mem_getLeaf (W : Nat) :
    ∀ t : CTree, Inv W t → ∀ v ∈ keys t, getLeaf W t v = v
  | .leaf _, _, v, hv => by
      simp only [keys, List.mem_singleton] at hv
      simp [getLeaf, hv]
  | .node l r cb, h, v, hv => by
      obtain ⟨hl, hr, -, hbl, hbr, -⟩ := h
      rcases List.mem_append.mp hv with h1 | h1
      · have hb := hbl v h1
        simp [getLeaf, hb, mem_getLeaf W l hl v h1]
      · have hb := hbr v h1
        simp [getLeaf, hb, mem_getLeaf W r hr v h1]

lemma contains_iff_mem (W : Nat) (t : CTree) (hI : Inv W t) (v : Nat) :
    critbit_contains W (some t) v = true ↔ v ∈ keys t := by
  simp only [critbit_contains, decide_eq_true_eq]
  constructor
  · intro h; exact h ▸ getLeaf_mem W t v
  · exact mem_getLeaf W t hI v

/-! The critical-bit scan. -/

lemma critBitSearch_find (W x : Nat) :
    ∀ fuel b0, (∃ j, j < fuel ∧ isSet W x (b0 + j) = true) →
      ∃ b, critBitSearch W x fuel b0 = some b ∧ isSet W x b = true ∧ b0 ≤ b ∧
        ∀ j, b0 ≤ j → j < b → isSet W x j = false := by
  intro fuel
  induction fuel with
  | zero => intro b0 ⟨j, hj, _⟩; omega
  | succ n ih =>
      intro b0 ⟨j, hj, hset⟩
      by_cases h : isSet W x b0
      · exact ⟨b0, by simp [critBitSearch, h], h, le_refl _, fun j h1 h2 => by omega⟩
      · have hj0 : j ≠ 0 := by
          intro h0; subst h0; simp only [Nat.add_zero] at hset; exact h (by simp [hset])
        obtain ⟨b, hb1, hb2, hb3, hb4⟩ :=
          ih (b0 + 1) ⟨j - 1, by omega, by
            have : b0 + 1 + (j - 1) = b0 + j := by omega
            rw [this]; exact hset⟩
        refine ⟨b, by simp [critBitSearch, h, hb1], hb2, by omega, ?_⟩
        intro i h1 h2
        rcases Nat.eq_or_lt_of_le h1 with h3 | h3
        · subst h3; simpa using h
        · exact hb4 i (by omega) h2

lemma getCritBit_spec (W x : Nat) (hx0 : x ≠ 0) (hxW : x < 2 ^ W)
    (hxe : x.testBit 0 = false) :
    critBitSearch W x W 0 = some (getCritBit W x)
    ∧ isSet W x (getCritBit W x) = true
    ∧ (∀ j, j < getCritBit W x → isSet W x j = false)
    ∧ getCritBit W x + 1 < W := by
  obtain ⟨i, hi, hi2⟩ := Nat.exists_most_significant_bit hx0
  have hiW : i < W := by
    by_contra h
    have : x.testBit i = false :=
      Nat.testBit_lt_two_pow (lt_of_lt_of_le hxW (Nat.pow_le_pow_right (by omega) (by omega)))
    simp [this] at hi
  have hi0 : i ≠ 0 := by intro h; rw [h, hxe] at hi; exact Bool.false_ne_true hi
  obtain ⟨b, hb1, hb2, hb3, hb4⟩ := critBitSearch_find W x W 0
    ⟨W - 1 - i, by omega, by
      simp only [Nat.zero_add, isSet]
      have : W - 1 - (W - 1 - i) = i := by omega
      rw [this]; exact hi⟩
  have hbv : getCritBit W x = b := by simp [getCritBit, hb1]
  rw [hbv]
  refine ⟨hb1, hb2, fun j hj => hb4 j (Nat.zero_le _) hj, ?_⟩
  by_contra h
  have hWb : W - 1 - b = 0 := by omega
  rw [isSet, hWb, hxe] at hb2
  exact Bool.false_ne_true hb2

/-! Ordering: the branch invariant forces numeric order between the two
subtrees of a node. -/

lemma lt_of_branch (W cb a b : Nat)
    (haW : a < 2 ^ W) (hbW : b < 2 ^ W) (hcb : cb + 1 < W)
    (ha : isSet W a cb = false) (hb : isSet W b cb = true)
    (hag : agreeBelow W cb a b) : a < b := by
  refine Nat.lt_of_testBit (W - 1 - cb) ha hb ?_
  intro j hj
  by_cases hjW : j < W
  · have hj2 : W - 1 - j < cb := by omega
    have := hag (W - 1 - j) hj2
    simpa only [isSet, show W - 1 - (W - 1 - j) = j by omega] using this
  · have h1 : a.testBit j = false :=
      Nat.testBit_lt_two_pow (lt_of_lt_of_le haW (Nat.pow_le_pow_right (by omega) (by omega)))
    have h2 : b.testBit j = false :=
      Nat.testBit_lt_two_pow (lt_of_lt_of_le hbW (Nat.pow_le_pow_right (by omega) (by omega)))
    rw [h1, h2]

lemma inv_sorted (W : Nat) : ∀ t : CTree, Inv W t → (keys t).Sorted (· < ·)
  | .leaf _, _ => by simp [keys]
  | .node l r cb, h => by
      obtain ⟨hl, hr, hcb, hbl, hbr, hag⟩ := h
      simp only [keys, List.Sorted] at *
      refine List.pairwise_append.mpr ⟨inv_sorted W l hl, inv_sorted W r hr, ?_⟩
      intro a ha b hb
      exact lt_of_branch W cb a b
        (valid_of_mem W l hl a ha).2.2 (valid_of_mem W r hr b hb).2.2 hcb
        (hbl a ha) (hbr b hb)
        (hag a (List.mem_append_left _ ha) b (List.mem_append_right _ hb))

/-! Correctness of the splice performed by `critbit_add`. -/

lemma mkNode_inv (W v b : Nat) (t : CTree) (hv : validKey W v) (hbW : b + 1 < W)
    (hInv : Inv W t)
    (hbit : ∀ k ∈ keys t, isSet W k b ≠ isSet W v b)
    (hagree : ∀ k ∈ keys t, ∀ j, j < b → isSet W k j = isSet W v j) :
    Inv W (mkNode W v b t)
    ∧ (∀ k, k ∈ keys (mkNode W v b t) ↔ k = v ∨ k ∈ keys t) := by
  unfold mkNode
  by_cases hs : isSet W v b
  · simp only [hs, if_true]
    constructor
    · refine ⟨hInv, hv, hbW, ?_, ?_, ?_⟩
      · intro k hk
        have h2 := hbit k hk
        rw [hs] at h2
        simpa using h2
      · intro k hk
        simp only [keys, List.mem_singleton] at hk
        subst hk; exact hs
      · intro k1 h1 k2 h2 j hj
        simp only [keys, List.mem_append, List.mem_singleton] at h1 h2
        rcases h1 with h1 | h1 <;> rcases h2 with h2 | h2
        · rw [hagree k1 h1 j hj, hagree k2 h2 j hj]
        · subst h2; exact hagree k1 h1 j hj
        · subst h1; exact (hagree k2 h2 j hj).symm
        · subst h1; subst h2; rfl
    · intro k
      simp only [keys, List.mem_append, List.mem_singleton]
      tauto
  · rw [if_neg hs]
    constructor
    · refine ⟨hv, hInv, hbW, ?_, ?_, ?_⟩
      · intro k hk
        simp only [keys, List.mem_singleton] at hk
        subst hk; simpa using hs
      · intro k hk
        have h2 := hbit k hk
        have hsf : isSet W v b = false := by simpa using hs
        cases hkb : isSet W k b with
        | true => rfl
        | false => rw [hkb, hsf] at h2; exact absurd rfl h2
      · intro k1 h1 k2 h2 j hj
        simp only [keys, List.mem_append, List.mem_singleton] at h1 h2
        rcases h1 with h1 | h1 <;> rcases h2 with h2 | h2
        · subst h1; subst h2; rfl
        · subst h1; exact (hagree k2 h2 j hj).symm
        · subst h2; exact hagree k1 h1 j hj
        · rw [hagree k1 h1 j hj, hagree k2 h2 j hj]
    · intro k
      simp [keys]

lemma splice_inv (W v b L : Nat) (hv : validKey W v) (hbW : b + 1 < W)
    (hdiff : isSet W L b ≠ isSet W v b)
    (hag : ∀ j, j < b → isSet W L j = isSet W v j) :
    ∀ t : CTree, Inv W t → getLeaf W t v = L →
      Inv W (splice W v b t)
      ∧ (∀ k, k ∈ keys (splice W v b t) ↔ k = v ∨ k ∈ keys t)
  | .leaf u, hI, hL => by
      have hu : u = L := by simpa [getLeaf] using hL
      subst hu
      simp only [splice]
      apply mkNode_inv W v b _ hv hbW hI
      · intro k hk
        simp only [keys, List.mem_singleton] at hk
        subst hk; exact hdiff
      · intro k hk j hj
        simp only [keys, List.mem_singleton] at hk
        subst hk; exact hag j hj
  | .node l r cb, hI, hL => by
      have hI2 : Inv W (CTree.node l r cb) := hI
      obtain ⟨hl, hr, hcb, hbl, hbr, hagAll⟩ := hI
      have hLmem : L ∈ keys l ++ keys r := by
        have h2 := getLeaf_mem W (CTree.node l r cb) v
        rw [hL] at h2
        simpa [keys] using h2
      by_cases hbc : b < cb
      · simp only [splice, hbc, if_true]
        apply mkNode_inv W v b _ hv hbW hI2
        · intro k hk
          simp only [keys] at hk
          have hkL : isSet W k b = isSet W L b := hagAll k hk L hLmem b hbc
          rw [hkL]; exact hdiff
        · intro k hk j hj
          simp only [keys] at hk
          have hkL : isSet W k j = isSet W L j := hagAll k hk L hLmem j (lt_trans hj hbc)
          rw [hkL]; exact hag j hj
      · have hvag : ∀ k ∈ keys l ++ keys r, agreeBelow W cb k v := by
          intro k hk j hj
          have h1 := hagAll k hk L hLmem j hj
          rw [h1]; exact hag j (lt_of_lt_of_le hj (not_lt.mp hbc))
        by_cases hs : isSet W v cb
        · have hL2 : getLeaf W r v = L := by simpa [getLeaf, hs] using hL
          obtain ⟨ih1, ih2⟩ := splice_inv W v b L hv hbW hdiff hag r hr hL2
          simp only [splice, hbc, if_false, hs, if_true]
          constructor
          · refine ⟨hl, ih1, hcb, hbl, ?_, ?_⟩
            · intro k hk
              rcases (ih2 k).mp hk with h1 | h1
              · subst h1; exact hs
              · exact hbr k h1
            · intro k1 h1 k2 h2 j hj
              have hmem : ∀ k, k ∈ keys l ++ keys (splice W v b r) →
                  k = v ∨ k ∈ keys l ++ keys r := by
                intro k hk
                rcases List.mem_append.mp hk with h3 | h3
                · exact Or.inr (List.mem_append_left _ h3)
                · rcases (ih2 k).mp h3 with h4 | h4
                  · exact Or.inl h4
                  · exact Or.inr (List.mem_append_right _ h4)
              rcases hmem k1 h1 with h3 | h3 <;> rcases hmem k2 h2 with h4 | h4
              · subst h3; subst h4; rfl
              · subst h3; exact (hvag k2 h4 j hj).symm
              · subst h4; exact hvag k1 h3 j hj
              · exact hagAll k1 h3 k2 h4 j hj
          · intro k
            simp only [keys, List.mem_append, ih2 k]
            tauto
        · have hL2 : getLeaf W l v = L := by simpa [getLeaf, hs] using hL
          obtain ⟨ih1, ih2⟩ := splice_inv W v b L hv hbW hdiff hag l hl hL2
          simp only [splice, hbc, if_false, hs]
          constructor
          · refine ⟨ih1, hr, hcb, ?_, hbr, ?_⟩
            · intro k hk
              rcases (ih2 k).mp hk with h1 | h1
              · subst h1; simpa using hs
              · exact hbl k h1
            · intro k1 h1 k2 h2 j hj
              have hmem : ∀ k, k ∈ keys (splice W v b l) ++ keys r →
                  k = v ∨ k ∈ keys l ++ keys r := by
                intro k hk
                rcases List.mem_append.mp hk with h3 | h3
                · rcases (ih2 k).mp h3 with h4 | h4
                  · exact Or.inl h4
                  · exact Or.inr (List.mem_append_left _ h4)
                · exact Or.inr (List.mem_append_right _ h3)
              rcases hmem k1 h1 with h3 | h3 <;> rcases hmem k2 h2 with h4 | h4
              · subst h3; subst h4; rfl
              · subst h3; exact (hvag k2 h4 j hj).symm
              · subst h4; exact hvag k1 h3 j hj
              · exact hagAll k1 h3 k2 h4 j hj
          · intro k
            simp only [keys, List.mem_append, ih2 k]
            tauto

lemma mkNode_keys_length (W v b : Nat) (t : CTree) :
    (keys (mkNode W v b t)).length = (keys t).length + 1 := by
  unfold mkNode
  by_cases hs : isSet W v b <;> simp [hs, keys, Nat.add_comm]

lemma splice_keys_length (W v b : Nat) :
    ∀ t : CTree, (keys (splice W v b t)).length = (keys t).length + 1
  | .leaf u => by simpa using mkNode_keys_length W v b (.leaf u)
  | .node l r cb => by
      by_cases hbc : b < cb
      · simp only [splice, hbc, if_true]
        exact mkNode_keys_length W v b (.node l r cb)
      · by_cases hs : isSet W v cb
        · simp only [splice, hbc, if_false, hs, if_true, keys, List.length_append,
            splice_keys_length W v b r]
          omega
        · rw [splice]
          rw [if_neg hbc, if_neg hs]
          simp only [keys, List.length_append, splice_keys_length W v b l]
          omega

/-- Characterization of `critbit_add` on an invariant-satisfying root: the
invariant is preserved, the result is 1 exactly when the key was absent,
the stored key set afterwards is the old set plus the key, a failed add
leaves the root unchanged, and a successful add stores exactly one more
key. -/
lemma add_preserves (W : Nat) (root : Option CTree) (v : Nat)
    (hI : InvOpt W root) (hv : validKey W v) :
    InvOpt W (critbit_add W root v).2
    ∧ ((critbit_add W root v).1 = true ↔ v ∉ keysOpt root)
    ∧ (∀ k, k ∈ keysOpt (critbit_add W root v).2 ↔ k = v ∨ k ∈ keysOpt root)
    ∧ ((critbit_add W root v).1 = false → (critbit_add W root v).2 = root)
    ∧ ((critbit_add W root v).1 = true →
        (keysOpt (critbit_add W root v).2).length = (keysOpt root).length + 1) := by
  match root with
  | none =>
      refine ⟨hv, by simp [critbit_add, keysOpt], ?_, by simp [critbit_add],
        by simp [critbit_add, keysOpt, keys]⟩
      intro k
      simp [critbit_add, keysOpt, keys]
  | some t =>
      have hIt : Inv W t := hI
      by_cases hL : getLeaf W t v = v
      · have hmem : v ∈ keys t := hL ▸ getLeaf_mem W t v
        simp only [critbit_add, if_pos hL]
        refine ⟨hIt, by simp [keysOpt, hmem], ?_, by simp, by simp⟩
        intro k
        simp only [keysOpt]
        constructor
        · exact fun h => Or.inr h
        · rintro (h | h)
          · subst h; exact hmem
          · exact h
      · have hvnot : v ∉ keys t := fun h => hL (mem_getLeaf W t hIt v h)
        have hLmem : getLeaf W t v ∈ keys t := getLeaf_mem W t v
        have hLv : validKey W (getLeaf W t v) := valid_of_mem W t hIt _ hLmem
        have hx0 : getLeaf W t v ^^^ v ≠ 0 := fun h => hL (Nat.xor_eq_zero.mp h)
        have hxW : getLeaf W t v ^^^ v < 2 ^ W := Nat.xor_lt_two_pow hLv.2.2 hv.2.2
        have hxe : (getLeaf W t v ^^^ v).testBit 0 = false := by
          rw [Nat.testBit_xor,
            Nat.mod_two_eq_zero_iff_testBit_zero.mp hLv.2.1,
            Nat.mod_two_eq_zero_iff_testBit_zero.mp hv.2.1]
          rfl
        obtain ⟨hs1, hs2, hs3, hs4⟩ := getCritBit_spec W (getLeaf W t v ^^^ v) hx0 hxW hxe
        have hdiff : isSet W (getLeaf W t v) (getCritBit W (getLeaf W t v ^^^ v))
            ≠ isSet W v (getCritBit W (getLeaf W t v ^^^ v)) := by
          intro h
          simp only [isSet, Nat.testBit_xor] at hs2 h
          rw [h] at hs2
          simp at hs2
        have hag : ∀ j, j < getCritBit W (getLeaf W t v ^^^ v) →
            isSet W (getLeaf W t v) j = isSet W v j := by
          intro j hj
          have h3 := hs3 j hj
          simp only [isSet, Nat.testBit_xor] at h3 ⊢
          revert h3
          cases (getLeaf W t v).testBit (W - 1 - j) <;> cases v.testBit (W - 1 - j) <;> simp
        obtain ⟨hInv2, hmem2⟩ :=
          splice_inv W v (getCritBit W (getLeaf W t v ^^^ v)) (getLeaf W t v)
            hv hs4 hdiff hag t hIt rfl
        simp only [critbit_add, if_neg hL]
        refine ⟨hInv2, by simp [keysOpt, hvnot], ?_, by simp, ?_⟩
        · intro k
          simpa [keysOpt] using hmem2 k
        · intro _
          simp only [keysOpt]
          exact splice_keys_length W v _ t

/-- Characterization of the `critbit_remove` descent loop on a node
satisfying the invariant: it returns 1 exactly when the key is stored; on
failure the structure is untouched; on success the invariant is preserved,
exactly the key disappears, and the key count drops by one. -/
lemma removeGo_spec (W v : Nat) :
    ∀ t : CTree, Inv W t → ∀ l0 r0 cb0, t = CTree.node l0 r0 cb0 →
      ((removeGo W v t).1 = true ↔ v ∈ keys t)
      ∧ ((removeGo W v t).1 = false → (removeGo W v t).2 = t)
      ∧ ((removeGo W v t).1 = true →
          Inv W (removeGo W v t).2
          ∧ (∀ k, k ∈ keys (removeGo W v t).2 ↔ k ∈ keys t ∧ k ≠ v)
          ∧ (keys (removeGo W v t).2).length + 1 = (keys t).length) := by
  intro t
  induction t with
  | leaf u => intro _ l0 r0 cb0 h; exact absurd h (by simp)
  | node l r cb ihl ihr =>
      intro hI _ _ _ _
      have hI2 := hI
      obtain ⟨hl, hr, hcb, hbl, hbr, hagAll⟩ := hI2
      by_cases hs : isSet W v cb
      · have hvnotl : v ∉ keys l := fun h => by simp [hbl v h] at hs
        cases r with
        | leaf u =>
            by_cases huv : u = v
            · have hgo : removeGo W v (CTree.node l (CTree.leaf u) cb) = (true, l) := by
                simp [removeGo, hs, huv]
              rw [hgo]
              refine ⟨by simp [keys, huv], by simp, ?_⟩
              intro _
              refine ⟨hl, ?_, by simp [keys]⟩
              intro k
              constructor
              · intro hk
                exact ⟨List.mem_append_left _ hk,
                  fun hkv => hvnotl (hkv ▸ hk)⟩
              · rintro ⟨hk, hkv⟩
                rcases List.mem_append.mp hk with h1 | h1
                · exact h1
                · simp only [keys, List.mem_singleton] at h1
                  exact absurd (h1.trans huv) hkv
            · have hgo : removeGo W v (CTree.node l (CTree.leaf u) cb)
                  = (false, CTree.node l (CTree.leaf u) cb) := by
                simp [removeGo, hs, huv]
              rw [hgo]
              refine ⟨?_, fun _ => rfl, by simp⟩
              simp only [keys, List.mem_append, List.mem_singleton]
              constructor
              · intro h; exact absurd h (by simp)
              · rintro (h | h)
                · exact absurd h hvnotl
                · exact absurd h.symm huv
        | node rl rr rcb =>
            have hgo : removeGo W v (CTree.node l (CTree.node rl rr rcb) cb)
                = ((removeGo W v (CTree.node rl rr rcb)).1,
                    CTree.node l (removeGo W v (CTree.node rl rr rcb)).2 cb) := by
              simp [removeGo, hs]
            obtain ⟨ih1, ih2, ih3⟩ := ihr hr rl rr rcb rfl
            rw [hgo]
            refine ⟨?_, ?_, ?_⟩
            · rw [ih1]
              simp only [keys, List.mem_append]
              constructor
              · exact fun h => Or.inr h
              · rintro (h | h)
                · exact absurd h hvnotl
                · exact h
            · intro h
              rw [ih2 h]
            · intro h
              obtain ⟨jInv, jmem, jlen⟩ := ih3 h
              refine ⟨?_, ?_, ?_⟩
              · refine ⟨hl, jInv, hcb, hbl, ?_, ?_⟩
                · intro k hk
                  exact hbr k ((jmem k).mp hk).1
                · intro k1 h1 k2 h2 j hj
                  have hsub : ∀ k, k ∈ keys l ++ keys (removeGo W v (CTree.node rl rr rcb)).2 →
                      k ∈ keys l ++ keys (CTree.node rl rr rcb) := by
                    intro k hk
                    rcases List.mem_append.mp hk with h3 | h3
                    · exact List.mem_append_left _ h3
                    · exact List.mem_append_right _ ((jmem k).mp h3).1
                  exact hagAll k1 (hsub k1 h1) k2 (hsub k2 h2) j hj
              · intro k
                have hj := jmem k
                have hlk : k ∈ keys l → k ≠ v := fun h hkv => hvnotl (hkv ▸ h)
                simp only [keys_node, List.mem_append] at hj ⊢
                constructor
                · rintro (h4 | h4)
                  · exact ⟨Or.inl h4, hlk h4⟩
                  · obtain ⟨h5, h6⟩ := hj.mp h4
                    exact ⟨Or.inr h5, h6⟩
                · rintro ⟨h4 | h4, h5⟩
                  · exact Or.inl h4
                  · exact Or.inr (hj.mpr ⟨h4, h5⟩)
              · simp only [keys_node, List.length_append] at jlen ⊢
                omega
      · have hvnotr : v ∉ keys r := fun h => hs (hbr v h)
        cases l with
        | leaf u =>
            by_cases huv : u = v
            · have hgo : removeGo W v (CTree.node (CTree.leaf u) r cb) = (true, r) := by
                simp [removeGo, hs, huv]
              rw [hgo]
              refine ⟨by simp [keys, huv], by simp, ?_⟩
              intro _
              refine ⟨hr, ?_, by simp [keys]⟩
              intro k
              constructor
              · intro hk
                exact ⟨List.mem_append_right _ hk,
                  fun hkv => hvnotr (hkv ▸ hk)⟩
              · rintro ⟨hk, hkv⟩
                rcases List.mem_append.mp hk with h1 | h1
                · simp only [keys, List.mem_singleton] at h1
                  exact absurd (h1.trans huv) hkv
                · exact h1
            · have hgo : removeGo W v (CTree.node (CTree.leaf u) r cb)
                  = (false, CTree.node (CTree.leaf u) r cb) := by
                simp [removeGo, hs, huv]
              rw [hgo]
              refine ⟨?_, fun _ => rfl, by simp⟩
              simp only [keys, List.mem_append, List.mem_singleton]
              constructor
              · intro h; exact absurd h (by simp)
              · rintro (h | h)
                · exact absurd h.symm huv
                · exact absurd h hvnotr
        | node ll lr lcb =>
            have hgo : removeGo W v (CTree.node (CTree.node ll lr lcb) r cb)
                = ((removeGo W v (CTree.node ll lr lcb)).1,
                    CTree.node (removeGo W v (CTree.node ll lr lcb)).2 r cb) := by
              simp [removeGo, hs]
            obtain ⟨ih1, ih2, ih3⟩ := ihl hl ll lr lcb rfl
            rw [hgo]
            refine ⟨?_, ?_, ?_⟩
            · rw [ih1]
              simp only [keys, List.mem_append]
              constructor
              · exact fun h => Or.inl h
              · rintro (h | h)
                · exact h
                · exact absurd h hvnotr
            · intro h
              rw [ih2 h]
            · intro h
              obtain ⟨jInv, jmem, jlen⟩ := ih3 h
              refine ⟨?_, ?_, ?_⟩
              · refine ⟨jInv, hr, hcb, ?_, hbr, ?_⟩
                · intro k hk
                  exact hbl k ((jmem k).mp hk).1
                · intro k1 h1 k2 h2 j hj
                  have hsub : ∀ k, k ∈ keys (removeGo W v (CTree.node ll lr lcb)).2 ++ keys r →
                      k ∈ keys (CTree.node ll lr lcb) ++ keys r := by
                    intro k hk
                    rcases List.mem_append.mp hk with h3 | h3
                    · exact List.mem_append_left _ ((jmem k).mp h3).1
                    · exact List.mem_append_right _ h3
                  exact hagAll k1 (hsub k1 h1) k2 (hsub k2 h2) j hj
              · intro k
                have hj := jmem k
                have hrk : k ∈ keys r → k ≠ v := fun h hkv => hvnotr (hkv ▸ h)
                simp only [keys_node, List.mem_append] at hj ⊢
                constructor
                · rintro (h4 | h4)
                  · obtain ⟨h5, h6⟩ := hj.mp h4
                    exact ⟨Or.inl h5, h6⟩
                  · exact ⟨Or.inr h4, hrk h4⟩
                · rintro ⟨h4 | h4, h5⟩
                  · exact Or.inl (hj.mpr ⟨h4, h5⟩)
                  · exact Or.inr h4
              · simp only [keys_node, List.length_append] at jlen ⊢
                omega

/-- Characterization of `critbit_remove` on an invariant-satisfying root. -/
lemma remove_preserves (W : Nat) (root : Option CTree) (v : Nat) (hI : InvOpt W root) :
    InvOpt W (critbit_remove W root v).2
    ∧ ((critbit_remove W root v).1 = true ↔ v ∈ keysOpt root)
    ∧ ((critbit_remove W root v).1 = false → (critbit_remove W root v).2 = root)
    ∧ ((critbit_remove W root v).1 = true →
        ∀ k, k ∈ keysOpt (critbit_remove W root v).2 ↔ k ∈ keysOpt root ∧ k ≠ v)
    ∧ ((critbit_remove W root v).1 = true →
        (keysOpt (critbit_remove W root v).2).length + 1 = (keysOpt root).length) := by
  match root with
  | none => simp [critbit_remove, keysOpt, InvOpt]
  | some (.leaf u) =>
      by_cases huv : u = v
      · subst huv
        simp [critbit_remove, keysOpt, keys, InvOpt]
      · have hne : v ∉ keys (CTree.leaf u) := by
          simp only [keys, List.mem_singleton]
          exact fun h => huv h.symm
        have hIt : Inv W (CTree.leaf u) := hI
        simp [critbit_remove, huv, keysOpt, InvOpt, hIt, hne]
  | some (.node l r cb) =>
      have hIt : Inv W (CTree.node l r cb) := hI
      obtain ⟨ih1, ih2, ih3⟩ := removeGo_spec W v (CTree.node l r cb) hIt l r cb rfl
      refine ⟨?_, ih1, ?_, ?_, ?_⟩
      · show Inv W (removeGo W v (CTree.node l r cb)).2
        cases hp : (removeGo W v (CTree.node l r cb)).1 with
        | false => rw [ih2 hp]; exact hIt
        | true => exact (ih3 hp).1
      · intro hp
        show some (removeGo W v (CTree.node l r cb)).2 = _
        rw [ih2 hp]
      · intro hp k
        exact (ih3 hp).2.1 k
      · intro hp
        exact (ih3 hp).2.2

/-- Every reachable root satisfies the structural invariant. -/
lemma reachable_inv (W : Nat) : ∀ root, Reachable W root → InvOpt W root := by
  intro root h
  induction h with
  | empty => trivial
  | add root v h hv ih => exact (add_preserves W root v ih hv).1
  | remove root v h hv ih => exact (remove_preserves W root v ih).1

lemma contains_iff_mem_opt (W : Nat) (root : Option CTree) (hI : InvOpt W root) (v : Nat) :
    critbit_contains W root v = true ↔ v ∈ keysOpt root := by
  match root with
  | none => simp [critbit_contains, keysOpt]
  | some t => exact contains_iff_mem W t hI v

/-- A child that is itself a node has a strictly larger `crit_bit`: the
strict increase along root-to-leaf paths follows from the branch and
agreement conditions. -/
lemma inv_child_cb (W : Nat) (l r : CTree) (cb : Nat) (hI : Inv W (CTree.node l r cb)) :
    cbAbove cb l ∧ cbAbove cb r := by
  obtain ⟨hl, hr, hcb, hbl, hbr, hagAll⟩ := hI
  constructor
  · cases l with
    | leaf u => trivial
    | node l2 r2 cb2 =>
        show cb < cb2
        obtain ⟨k, hk⟩ := List.exists_mem_of_ne_nil _ (keys_ne_nil r2)
        obtain ⟨k2, hk2⟩ := List.exists_mem_of_ne_nil _ (keys_ne_nil l2)
        have hkl : k ∈ keys (CTree.node l2 r2 cb2) := by
          rw [keys_node]; exact List.mem_append_right _ hk
        have hk2l : k2 ∈ keys (CTree.node l2 r2 cb2) := by
          rw [keys_node]; exact List.mem_append_left _ hk2
        have hl2 := hl
        obtain ⟨-, -, -, hbl2, hbr2, -⟩ := hl2
        have h1 : isSet W k cb2 = true := hbr2 k hk
        have h2 : isSet W k2 cb2 = false := hbl2 k2 hk2
        by_contra hlt
        push_neg at hlt
        rcases Nat.lt_or_ge cb2 cb with h3 | h3
        · have h4 := hagAll k (List.mem_append_left _ hkl) k2
            (List.mem_append_left _ hk2l) cb2 h3
          rw [h1, h2] at h4
          exact absurd h4 (by simp)
        · have hEq : cb2 = cb := Nat.le_antisymm hlt h3
          have h5 := hbl k hkl
          rw [hEq] at h1
          rw [h1] at h5
          exact absurd h5 (by simp)
  · cases r with
    | leaf u => trivial
    | node l2 r2 cb2 =>
        show cb < cb2
        obtain ⟨k, hk⟩ := List.exists_mem_of_ne_nil _ (keys_ne_nil r2)
        obtain ⟨k2, hk2⟩ := List.exists_mem_of_ne_nil _ (keys_ne_nil l2)
        have hkl : k ∈ keys (CTree.node l2 r2 cb2) := by
          rw [keys_node]; exact List.mem_append_right _ hk
        have hk2l : k2 ∈ keys (CTree.node l2 r2 cb2) := by
          rw [keys_node]; exact List.mem_append_left _ hk2
        have hr2 := hr
        obtain ⟨-, -, -, hbl2, hbr2, -⟩ := hr2
        have h1 : isSet W k cb2 = true := hbr2 k hk
        have h2 : isSet W k2 cb2 = false := hbl2 k2 hk2
        by_contra hlt
        push_neg at hlt
        rcases Nat.lt_or_ge cb2 cb with h3 | h3
        · have h4 := hagAll k (List.mem_append_right _ hkl) k2
            (List.mem_append_right _ hk2l) cb2 h3
          rw [h1, h2] at h4
          exact absurd h4 (by simp)
        · have hEq : cb2 = cb := Nat.le_antisymm hlt h3
          have h5 := hbr k2 hk2l
          rw [hEq] at h2
          rw [h2] at h5
          exact absurd h5 (by simp)

/-- The full invariant implies the invariant exactly as the specification
phrases it. -/
lemma inv_struct (W : Nat) : ∀ t : CTree, Inv W t → StructInv W t
  | .leaf _, _ => trivial
  | .node l r cb, hI => by
      have h2 := inv_child_cb W l r cb hI
      obtain ⟨hl, hr, hcb, hbl, hbr, hag⟩ := hI
      show cbAbove cb l ∧ cbAbove cb r
        ∧ (∀ k ∈ keys l, isSet W k cb = false)
        ∧ (∀ k ∈ keys r, isSet W k cb = true)
        ∧ StructInv W l ∧ StructInv W r
      exact ⟨h2.1, h2.2, hbl, hbr, inv_struct W l hl, inv_struct W r hr⟩

/-- Depth bound: a node with `crit_bit = cb` roots a subtree whose height is
below `W - cb`, because `crit_bit` strictly increases downwards and stays
below `W - 1`. -/
lemma inv_height_node (W : Nat) :
    ∀ t, Inv W t → ∀ l0 r0 cb0, t = CTree.node l0 r0 cb0 → height t + cb0 + 1 ≤ W := by
  intro t
  induction t with
  | leaf u => intro _ l0 r0 cb0 h; exact absurd h (by simp)
  | node l r cb ihl ihr =>
      intro hI l0 r0 cb0 heq
      injection heq with h1 h2 h3
      subst h3
      have hcc := inv_child_cb W l r cb hI
      obtain ⟨hl, hr, hcb, -, -, -⟩ := hI
      have hL : height l + cb + 2 ≤ W := by
        cases l with
        | leaf u => simp only [height]; omega
        | node a b c =>
            have h4 : cb < c := hcc.1
            have h5 := ihl hl a b c rfl
            omega
      have hR : height r + cb + 2 ≤ W := by
        cases r with
        | leaf u => simp only [height]; omega
        | node a b c =>
            have h4 : cb < c := hcc.2
            have h5 := ihr hr a b c rfl
            omega
      simp only [height]
      omega

lemma inv_height_le (W : Nat) (t : CTree) (hI : Inv W t) : height t ≤ W := by
  cases t with
  | leaf u => simp [height]
  | node l r cb =>
      have := inv_height_node W (CTree.node l r cb) hI l r cb rfl
      omega

/-! Node-count bookkeeping for the allocation claims. -/

lemma nodeCount_mkNode (W v b : Nat) (t : CTree) :
    nodeCount (mkNode W v b t) = nodeCount t + 1 := by
  unfold mkNode
  by_cases hs : isSet W v b <;> simp [hs, nodeCount]

lemma nodeCount_splice (W v b : Nat) :
    ∀ t, nodeCount (splice W v b t) = nodeCount t + 1
  | .leaf u => by
      simp only [splice]
      simpa [nodeCount] using nodeCount_mkNode W v b (.leaf u)
  | .node l r cb => by
      by_cases hbc : b < cb
      · simp only [splice, hbc, if_true]
        exact nodeCount_mkNode W v b (.node l r cb)
      · by_cases hs : isSet W v cb
        · simp only [splice, hbc, if_false, hs, if_true, nodeCount,
            nodeCount_splice W v b r]
          omega
        · rw [splice, if_neg hbc, if_neg hs]
          simp only [nodeCount, nodeCount_splice W v b l]
          omega

lemma nodeCount_removeGo (W v : Nat) :
    ∀ t, ((removeGo W v t).1 = false → (removeGo W v t).2 = t)
       ∧ ((removeGo W v t).1 = true → nodeCount (removeGo W v t).2 + 1 = nodeCount t) := by
  intro t
  induction t with
  | leaf u => exact ⟨fun _ => rfl, by simp [removeGo]⟩
  | node l r cb ihl ihr =>
      by_cases hs : isSet W v cb
      · cases r with
        | leaf u =>
            by_cases huv : u = v
            · have hgo : removeGo W v (CTree.node l (CTree.leaf u) cb) = (true, l) := by
                simp [removeGo, hs, huv]
              rw [hgo]
              exact ⟨by simp, fun _ => by simp [nodeCount]⟩
            · have hgo : removeGo W v (CTree.node l (CTree.leaf u) cb)
                  = (false, CTree.node l (CTree.leaf u) cb) := by
                simp [removeGo, hs, huv]
              rw [hgo]
              exact ⟨fun _ => rfl, by simp⟩
        | node rl rr rcb =>
            have hgo : removeGo W v (CTree.node l (CTree.node rl rr rcb) cb)
                = ((removeGo W v (CTree.node rl rr rcb)).1,
                    CTree.node l (removeGo W v (CTree.node rl rr rcb)).2 cb) := by
              simp [removeGo, hs]
            rw [hgo]
            constructor
            · intro hp
              rw [ihr.1 hp]
            · intro hp
              have h2 := ihr.2 hp
              simp only [nodeCount] at h2 ⊢
              omega
      · cases l with
        | leaf u =>
            by_cases huv : u = v
            · have hgo : removeGo W v (CTree.node (CTree.leaf u) r cb) = (true, r) := by
                simp [removeGo, hs, huv]
              rw [hgo]
              exact ⟨by simp, fun _ => by simp [nodeCount]⟩
            · have hgo : removeGo W v (CTree.node (CTree.leaf u) r cb)
                  = (false, CTree.node (CTree.leaf u) r cb) := by
                simp [removeGo, hs, huv]
              rw [hgo]
              exact ⟨fun _ => rfl, by simp⟩
        | node ll lr lcb =>
            have hgo : removeGo W v (CTree.node (CTree.node ll lr lcb) r cb)
                = ((removeGo W v (CTree.node ll lr lcb)).1,
                    CTree.node (removeGo W v (CTree.node ll lr lcb)).2 r cb) := by
              simp [removeGo, hs]
            rw [hgo]
            constructor
            · intro hp
              rw [ihl.1 hp]
            · intro hp
              have h2 := ihl.2 hp
              simp only [nodeCount] at h2 ⊢
              omega

lemma removeAllFrees_eq_nodeCount : ∀ t, removeAllFrees t = nodeCount t
  | .leaf _ => rfl
  | .node l r cb => by
      simp only [removeAllFrees, nodeCount, removeAllFrees_eq_nodeCount l,
        removeAllFrees_eq_nodeCount r]

lemma nodeCount_add_one_eq_keys_length : ∀ t, nodeCount t + 1 = (keys t).length
  | .leaf _ => rfl
  | .node l r cb => by
      have h1 := nodeCount_add_one_eq_keys_length l
      have h2 := nodeCount_add_one_eq_keys_length r
      simp only [nodeCount, keys_node, List.length_append]
      omega

/-! Allocation accounting over instrumented runs. -/

/-- One operation keeps the conservation equation between allocator calls
and live internal nodes: allocations = frees + live nodes. -/
lemma runOp_conservation (W : Nat) (s : TState) (op : Op)
    (h : s.allocs = s.frees + nodeCountOpt s.root) :
    (runOp W s op).allocs = (runOp W s op).frees + nodeCountOpt (runOp W s op).root := by
  obtain ⟨root, al, fr⟩ := s
  simp only at h
  cases op with
  | add v =>
      cases root with
      | none =>
          simp only [runOp, allocsOfAdd, critbit_add, nodeCountOpt, nodeCount] at h ⊢
          omega
      | some t =>
          by_cases hL : getLeaf W t v = v
          · simp only [runOp, allocsOfAdd, critbit_add, hL, if_pos, nodeCountOpt] at h ⊢
            simp [hL] at h ⊢
            omega
          · simp only [runOp, allocsOfAdd, critbit_add, nodeCountOpt] at h ⊢
            simp only [if_neg hL]
            rw [nodeCount_splice]
            omega
  | rem v =>
      cases root with
      | none =>
          simp only [runOp, freesOfRemove, critbit_remove, nodeCountOpt] at h ⊢
          omega
      | some t =>
          cases t with
          | leaf u =>
              by_cases huv : u = v
              · simp only [runOp, freesOfRemove, critbit_remove, if_pos huv,
                  nodeCountOpt, nodeCount] at h ⊢
                omega
              · simp only [runOp, freesOfRemove, critbit_remove, if_neg huv,
                  nodeCountOpt, nodeCount] at h ⊢
                omega
          | node l r cb =>
              have hrg := nodeCount_removeGo W v (CTree.node l r cb)
              cases hp : (removeGo W v (CTree.node l r cb)).1 with
              | false =>
                  have h2 := hrg.1 hp
                  simp only [runOp, freesOfRemove, critbit_remove, hp, nodeCountOpt,
                    if_neg Bool.false_ne_true, h2] at h ⊢
                  omega
              | true =>
                  have h2 := hrg.2 hp
                  simp only [runOp, freesOfRemove, critbit_remove, hp, if_true,
                    nodeCountOpt] at h ⊢
                  omega

lemma runOps_conservation_from (W : Nat) :
    ∀ (ops : List Op) (s : TState), s.allocs = s.frees + nodeCountOpt s.root →
      (ops.foldl (runOp W) s).allocs
        = (ops.foldl (runOp W) s).frees + nodeCountOpt (ops.foldl (runOp W) s).root := by
  intro ops
  induction ops with
  | nil => intro s h; exact h
  | cons op ops ih =>
      intro s h
      exact ih _ (runOp_conservation W s op h)

/-- The alloc counter counts exactly the adds that return 1 on a nonempty
trie. -/
lemma runOps_allocs_from (W : Nat) :
    ∀ (ops : List Op) (s : TState),
      (ops.foldl (runOp W) s).allocs = s.allocs + countAllocAdds W s.root ops := by
  intro ops
  induction ops with
  | nil => intro s; simp [countAllocAdds]
  | cons op ops ih =>
      intro s
      cases op with
      | add v =>
          rw [List.foldl_cons, ih]
          have hca : allocsOfAdd W s.root v
              = if s.root ≠ none ∧ (critbit_add W s.root v).1 = true then 1 else 0 := by
            cases hr : s.root with
            | none => simp [allocsOfAdd]
            | some t =>
                by_cases hL : getLeaf W t v = v <;>
                  simp [allocsOfAdd, critbit_add, hL]
          simp only [countAllocAdds, runOp, hca]
          omega
      | rem v =>
          rw [List.foldl_cons, ih]
          simp only [countAllocAdds, runOp]

lemma runOps_add_only_frees (W : Nat) :
    ∀ (vs : List Nat) (s : TState),
      (((vs.map Op.add).foldl (runOp W) s)).frees = s.frees := by
  intro vs
  induction vs with
  | nil => intro s; rfl
  | cons v vs ih =>
      intro s
      rw [List.map_cons, List.foldl_cons, ih]
      rfl

lemma keysOpt_len_add_le (W : Nat) (root : Option CTree) (v : Nat) :
    (keysOpt (critbit_add W root v).2).length ≤ (keysOpt root).length + 1 := by
  cases root with
  | none => simp [critbit_add, keysOpt, keys]
  | some t =>
      by_cases hL : getLeaf W t v = v
      · simp [critbit_add, hL, keysOpt]
      · simp only [critbit_add, if_neg hL, keysOpt]
        rw [splice_keys_length]

lemma runOps_add_only_klen (W : Nat) :
    ∀ (vs : List Nat) (s : TState),
      (keysOpt ((vs.map Op.add).foldl (runOp W) s).root).length
        ≤ (keysOpt s.root).length + vs.length := by
  intro vs
  induction vs with
  | nil => intro s; simp
  | cons v vs ih =>
      intro s
      rw [List.map_cons, List.foldl_cons]
      have h1 := ih (runOp W s (Op.add v))
      have h2 := keysOpt_len_add_le W s.root v
      have h3 : (runOp W s (Op.add v)).root = (critbit_add W s.root v).2 := rfl
      rw [h3] at h1
      simp only [List.length_cons]
      omega

/-- Adding a key that is already stored returns 0 and leaves the root word
untouched. -/
lemma add_dup_id (W : Nat) (root : Option CTree) (k : Nat)
    (hI : InvOpt W root) (hmem : k ∈ keysOpt root) :
    critbit_add W root k = (false, root) := by
  match root with
  | none => simp [keysOpt] at hmem
  | some t =>
      have hL : getLeaf W t k = k := mem_getLeaf W t hI k hmem
      simp [critbit_add, hL]

/-- Invariant of the insertion loop of `critbit_sort`: the built trie stores
exactly the elements seen so far, and the count `m` drops by the number of
rejected duplicates: after the loop, `m` exceeds the initial count by the
number of stored keys minus the length of the consumed input. -/
lemma sort_fold_spec (W : Nat) :
    ∀ (a : List Nat) (r0 : Option CTree) (c0 : Nat),
      InvOpt W r0 → (∀ k ∈ a, validKey W k) → a.length ≤ c0 →
      InvOpt W (a.foldl (sortStep W) (r0, c0)).1
      ∧ (∀ k, k ∈ keysOpt (a.foldl (sortStep W) (r0, c0)).1 ↔
          k ∈ keysOpt r0 ∨ k ∈ a)
      ∧ ∃ d, (keysOpt (a.foldl (sortStep W) (r0, c0)).1).length
            = (keysOpt r0).length + d
          ∧ d ≤ a.length
          ∧ (a.foldl (sortStep W) (r0, c0)).2 + a.length = c0 + d := by
  intro a
  induction a with
  | nil =>
      intro r0 c0 hI hval hlen
      exact ⟨hI, by simp, 0, by simp, by simp, by simp⟩
  | cons v a ih =>
      intro r0 c0 hI hval hlen
      have hv : validKey W v := hval v (List.mem_cons_self _ _)
      obtain ⟨aI, aBool, aMem, aSame, aLen⟩ := add_preserves W r0 v hI hv
      rw [List.foldl_cons]
      simp only [List.length_cons] at hlen
      by_cases hb : (critbit_add W r0 v).1 = true
      · have hstep : sortStep W (r0, c0) v = ((critbit_add W r0 v).2, c0) := by
          simp [sortStep, hb]
        rw [hstep]
        obtain ⟨ih1, ih2, d, hd1, hd2, hd3⟩ := ih (critbit_add W r0 v).2 c0 aI
          (fun k hk => hval k (List.mem_cons_of_mem _ hk)) (by omega)
        refine ⟨ih1, ?_, d + 1, ?_, by simp only [List.length_cons]; omega, ?_⟩
        · intro k
          rw [ih2 k, aMem k]
          simp only [List.mem_cons]
          tauto
        · rw [hd1, aLen hb]
          omega
        · simp only [List.length_cons]
          omega
      · have hb2 : (critbit_add W r0 v).1 = false := by
          cases hb3 : (critbit_add W r0 v).1 with
          | false => rfl
          | true => exact absurd hb3 hb
        have hstep : sortStep W (r0, c0) v = (r0, c0 - 1) := by
          simp [sortStep, hb2, aSame hb2]
        rw [hstep]
        have hvmem : v ∈ keysOpt r0 := by
          by_contra hc
          exact hb (aBool.mpr hc)
        obtain ⟨ih1, ih2, d, hd1, hd2, hd3⟩ := ih r0 (c0 - 1) hI
          (fun k hk => hval k (List.mem_cons_of_mem _ hk)) (by omega)
        refine ⟨ih1, ?_, d, hd1, by simp only [List.length_cons]; omega, ?_⟩
        · intro k
          rw [ih2 k]
          simp only [List.mem_cons]
          constructor
          · rintro (h | h)
            · exact Or.inl h
            · exact Or.inr (Or.inr h)
          · rintro (h | h | h)
            · exact Or.inl h
            · subst h; exact Or.inl hvmem
            · exact Or.inr h
        · simp only [List.length_cons]
          omega

/-! The claims. -/

/-- C1: on every nonempty reachable trie, `critbit_foreach` passes to the
visitor exactly the currently present keys, in strictly increasing order
(hence exactly once each); but on the empty trie (root word 0) the code
hands 0 to `_critbit_has_tag` and, with assertions disabled, invokes the
visitor once with key 0 instead of not at all — the claim fails there. -/
theorem foreach_ascending_code_bug :
    (∀ (W : Nat) (root : Option CTree), Reachable W root → root ≠ none →
      (critbit_foreach root).Sorted (· < ·)
      ∧ (∀ k, k ∈ critbit_foreach root ↔ critbit_contains W root k = true))
    ∧ critbit_foreach none = [0] := by
  refine ⟨?_, rfl⟩
  intro W root hR hne
  match root, hne with
  | some t, _ =>
      have hI : Inv W t := reachable_inv W _ hR
      refine ⟨inv_sorted W t hI, ?_⟩
      intro k
      rw [contains_iff_mem W t hI k]
      exact Iff.rfl

/-- Witness for C1 at a concrete nonempty reachable trie. -/
theorem foreach_ascending_code_bug_witness :
    Reachable 64 (critbit_add 64 none 4).2
    ∧ (critbit_add 64 none 4).2 ≠ none
    ∧ ((critbit_foreach (critbit_add 64 none 4).2).Sorted (· < ·)
        ∧ ∀ k, k ∈ critbit_foreach (critbit_add 64 none 4).2 ↔
            critbit_contains 64 (critbit_add 64 none 4).2 k = true) := by
  have hR : Reachable 64 (critbit_add 64 none 4).2 :=
    Reachable.add none 4 Reachable.empty (by decide)
  exact ⟨hR, by decide, foreach_ascending_code_bug.1 64 _ hR (by decide)⟩

/-- C2: `critbit_sort` returns `m ≤ n`, the first `m` buffer cells are
strictly ascending, and they hold exactly the distinct values of the input;
in particular scenario B. -/
theorem sort_correct :
    (∀ (W : Nat) (a : List Nat), (∀ k ∈ a, validKey W k) →
      (critbit_sort W a).1 ≤ a.length
      ∧ ((critbit_sort W a).2.take (critbit_sort W a).1).Sorted (· < ·)
      ∧ ((critbit_sort W a).2.take (critbit_sort W a).1).toFinset = a.toFinset)
    ∧ (critbit_sort 64 [8, 4, 4, 6, 2]).1 = 4
    ∧ (critbit_sort 64 [8, 4, 4, 6, 2]).2.take (critbit_sort 64 [8, 4, 4, 6, 2]).1
        = [2, 4, 6, 8] := by
  refine ⟨?_, by decide, by decide⟩
  intro W a hval
  obtain ⟨fI, fMem, d, hd1, hd2, hd3⟩ :=
    sort_fold_spec W a none a.length trivial hval (le_refl _)
  cases hro : (a.foldl (sortStep W) (none, a.length)).1 with
  | none =>
      rw [hro] at fMem hd1
      have ha : ∀ k ∈ a, False := by
        intro k hk
        have h2 := (fMem k).mpr (Or.inr hk)
        simpa [keysOpt] using h2
      have hanil : a = [] := by
        cases a with
        | nil => rfl
        | cons x xs => exact (ha x (List.mem_cons_self _ _)).elim
      subst hanil
      have hunf : critbit_sort W ([] : List Nat) = (0, [0]) := rfl
      rw [hunf]
      simp
  | some t =>
      rw [hro] at fI fMem hd1
      have hIt : Inv W t := fI
      have hm : (a.foldl (sortStep W) (none, a.length)).2 = d := by omega
      have hklen : (keys t).length = d := by simpa [keysOpt] using hd1
      have hs1 : (critbit_sort W a).1 = d := by
        simp [critbit_sort, hm]
      have hs2 : (critbit_sort W a).2 = keys t ++ a.drop (keys t).length := by
        simp [critbit_sort, hro, critbit_foreach]
      have htake : (critbit_sort W a).2.take (critbit_sort W a).1 = keys t := by
        rw [hs1, hs2, ← hklen]
        exact List.take_left _ _
      refine ⟨by rw [hs1]; omega, ?_, ?_⟩
      · rw [htake]; exact inv_sorted W t hIt
      · rw [htake]
        ext x
        simp only [List.mem_toFinset]
        have h2 := fMem x
        simp only [keysOpt] at h2
        rw [h2]
        simp

/-- Witness for C2 at a concrete valid buffer. -/
theorem sort_correct_witness :
    (∀ k ∈ [(4 : Nat), 2], validKey 64 k)
    ∧ ((critbit_sort 64 [4, 2]).1 ≤ 2
       ∧ ((critbit_sort 64 [4, 2]).2.take (critbit_sort 64 [4, 2]).1).Sorted (· < ·)
       ∧ ((critbit_sort 64 [4, 2]).2.take (critbit_sort 64 [4, 2]).1).toFinset
           = [(4 : Nat), 2].toFinset) := by
  refine ⟨by decide, ?_⟩
  have h := sort_correct.1 64 [4, 2] (by decide)
  simpa using h

/-- C3: scenario A, the concrete call sequence from a freshly created
trie, with every intermediate root spelled out. -/
theorem scenario_A :
    critbit_add 64 none 4 = (true, some (CTree.leaf 4))
    ∧ critbit_add 64 (some (CTree.leaf 4)) 4 = (false, some (CTree.leaf 4))
    ∧ critbit_add 64 (some (CTree.leaf 4)) 6
        = (true, some (CTree.node (CTree.leaf 4) (CTree.leaf 6) 62))
    ∧ critbit_contains 64 (some (CTree.node (CTree.leaf 4) (CTree.leaf 6) 62)) 4 = true
    ∧ critbit_contains 64 (some (CTree.node (CTree.leaf 4) (CTree.leaf 6) 62)) 8 = false
    ∧ critbit_foreach (some (CTree.node (CTree.leaf 4) (CTree.leaf 6) 62)) = [4, 6]
    ∧ critbit_remove 64 (some (CTree.node (CTree.leaf 4) (CTree.leaf 6) 62)) 4
        = (true, some (CTree.leaf 6))
    ∧ critbit_foreach (some (CTree.leaf 6)) = [6]
    ∧ critbit_remove 64 (some (CTree.leaf 6)) 4 = (false, some (CTree.leaf 6)) := by
  decide

/-- C4: removing a present key succeeds, after which the key is gone and a
second remove fails. -/
theorem remove_inverse (W : Nat) (root : Option CTree) (k : Nat)
    (hR : Reachable W root) (hk : validKey W k) (hmem : k ∈ keysOpt root) :
    (critbit_remove W root k).1 = true
    ∧ critbit_contains W (critbit_remove W root k).2 k = false
    ∧ (critbit_remove W (critbit_remove W root k).2 k).1 = false := by
  have hI := reachable_inv W root hR
  obtain ⟨rI, rBool, rSame, rMem, rLen⟩ := remove_preserves W root k hI
  have h1 : (critbit_remove W root k).1 = true := rBool.mpr hmem
  have hnot : k ∉ keysOpt (critbit_remove W root k).2 := by
    intro h
    exact ((rMem h1 k).mp h).2 rfl
  refine ⟨h1, ?_, ?_⟩
  · have h2 := contains_iff_mem_opt W _ rI k
    cases hc : critbit_contains W (critbit_remove W root k).2 k with
    | false => rfl
    | true => exact absurd (h2.mp hc) hnot
  · obtain ⟨-, rBool2, -, -, -⟩ := remove_preserves W (critbit_remove W root k).2 k rI
    cases hc : (critbit_remove W (critbit_remove W root k).2 k).1 with
    | false => rfl
    | true => exact absurd (rBool2.mp hc) hnot

/-- Witness for C4 at a reachable two-key trie. -/
theorem remove_inverse_witness :
    Reachable 64 (critbit_add 64 (critbit_add 64 none 4).2 6).2
    ∧ validKey 64 4
    ∧ 4 ∈ keysOpt (critbit_add 64 (critbit_add 64 none 4).2 6).2
    ∧ ((critbit_remove 64 (critbit_add 64 (critbit_add 64 none 4).2 6).2 4).1 = true
       ∧ critbit_contains 64
           (critbit_remove 64 (critbit_add 64 (critbit_add 64 none 4).2 6).2 4).2 4 = false
       ∧ (critbit_remove 64
           (critbit_remove 64 (critbit_add 64 (critbit_add 64 none 4).2 6).2 4).2 4).1
           = false) := by
  have hR : Reachable 64 (critbit_add 64 (critbit_add 64 none 4).2 6).2 :=
    Reachable.add _ 6 (Reachable.add none 4 Reachable.empty (by decide)) (by decide)
  exact ⟨hR, by decide, by decide, remove_inverse 64 _ 4 hR (by decide) (by decide)⟩

/-- C5, counterexample: the claim quantifies over every trie state, but on a
state already containing the key (here the reachable root holding the key
2) the first of the two adds returns 0, not 1. -/
theorem add_twice_counterexample :
    (critbit_add 64 (critbit_add 64 none 2).2 2).1 = false := by decide

/-- C5, amended: on every reachable trie state NOT already containing the
nonzero even key `k`, `critbit_add` twice returns 1 then 0, the key is
contained after the first call, and the duplicate-rejecting second add
leaves the trie state completely unchanged. -/
theorem add_twice_amended (W : Nat) (root : Option CTree) (k : Nat)
    (hR : Reachable W root) (hk : validKey W k) (hnot : k ∉ keysOpt root) :
    (critbit_add W root k).1 = true
    ∧ critbit_contains W (critbit_add W root k).2 k = true
    ∧ critbit_add W (critbit_add W root k).2 k = (false, (critbit_add W root k).2) := by
  have hI := reachable_inv W root hR
  obtain ⟨aI, aBool, aMem, aSame, aLen⟩ := add_preserves W root k hI hk
  have h1 : (critbit_add W root k).1 = true := aBool.mpr hnot
  have hmem2 : k ∈ keysOpt (critbit_add W root k).2 := (aMem k).mpr (Or.inl rfl)
  exact ⟨h1, (contains_iff_mem_opt W _ aI k).mpr hmem2, add_dup_id W _ k aI hmem2⟩

/-- Witness for C5's amended claim. -/
theorem add_twice_amended_witness :
    Reachable 64 (critbit_add 64 none 4).2
    ∧ validKey 64 6
    ∧ 6 ∉ keysOpt (critbit_add 64 none 4).2
    ∧ ((critbit_add 64 (critbit_add 64 none 4).2 6).1 = true
       ∧ critbit_contains 64 (critbit_add 64 (critbit_add 64 none 4).2 6).2 6 = true
       ∧ critbit_add 64 (critbit_add 64 (critbit_add 64 none 4).2 6).2 6
           = (false, (critbit_add 64 (critbit_add 64 none 4).2 6).2)) := by
  have hR : Reachable 64 (critbit_add 64 none 4).2 :=
    Reachable.add none 4 Reachable.empty (by decide)
  exact ⟨hR, by decide, by decide, add_twice_amended 64 _ 6 hR (by decide) (by decide)⟩

/-- C6: every reachable trie satisfies the structural invariant exactly as
the specification states it — strictly increasing `crit_bit` along every
path, 0 bits under `next[0]` and 1 bits under `next[1]` at each node's
`crit_bit`; `critbit_add` maintains it because `splice` places the new node
at the first reference whose `crit_bit` exceeds the computed critical
bit. -/
theorem reachable_struct_inv (W : Nat) (root : Option CTree) (hR : Reachable W root) :
    ∀ t, root = some t → StructInv W t := by
  intro t h
  subst h
  exact inv_struct W t (reachable_inv W _ hR)

/-- Witness for C6 at a reachable two-key trie. -/
theorem reachable_struct_inv_witness :
    Reachable 64 (critbit_add 64 (critbit_add 64 none 4).2 6).2
    ∧ StructInv 64 (CTree.node (CTree.leaf 4) (CTree.leaf 6) 62) := by
  have hR : Reachable 64 (critbit_add 64 (critbit_add 64 none 4).2 6).2 :=
    Reachable.add _ 6 (Reachable.add none 4 Reachable.empty (by decide)) (by decide)
  exact ⟨hR, reachable_struct_inv 64 _ hR (CTree.node (CTree.leaf 4) (CTree.leaf 6) 62)
    (by decide)⟩

/-- C7: allocator accounting.  Over any operation sequence from a fresh
trie, the `alloc_node` calls are exactly the successful adds into a
nonempty trie; allocations always equal frees plus live internal nodes (so
with the teardown frees, which equal the live node count, every node ever
created is destroyed exactly once); and a pure insertion sequence of `n`
keys performs at most `n - 1` allocations. -/
theorem allocation_accounting :
    (∀ (W : Nat) (ops : List Op),
        (runOps W ops).allocs = countAllocAdds W none ops)
    ∧ (∀ (W : Nat) (ops : List Op),
        (runOps W ops).allocs
          = (runOps W ops).frees + nodeCountOpt (runOps W ops).root)
    ∧ (∀ root : Option CTree, teardownFrees root = nodeCountOpt root)
    ∧ (∀ (W : Nat) (vs : List Nat),
        (runOps W (vs.map Op.add)).allocs ≤ vs.length - 1) := by
  refine ⟨?_, ?_, ?_, ?_⟩
  · intro W ops
    have h := runOps_allocs_from W ops ⟨none, 0, 0⟩
    simpa [runOps] using h
  · intro W ops
    exact runOps_conservation_from W ops ⟨none, 0, 0⟩ rfl
  · intro root
    cases root with
    | none => rfl
    | some t => exact removeAllFrees_eq_nodeCount t
  · intro W vs
    have hcons := runOps_conservation_from W (vs.map Op.add) ⟨none, 0, 0⟩ rfl
    have hfr : ((vs.map Op.add).foldl (runOp W) ⟨none, 0, 0⟩).frees = 0 :=
      runOps_add_only_frees W vs ⟨none, 0, 0⟩
    have hkl := runOps_add_only_klen W vs ⟨none, 0, 0⟩
    have hz : (keysOpt ((⟨none, 0, 0⟩ : TState)).root).length = 0 := rfl
    show ((vs.map Op.add).foldl (runOp W) ⟨none, 0, 0⟩).allocs ≤ vs.length - 1
    rw [hfr] at hcons
    cases hro : ((vs.map Op.add).foldl (runOp W) ⟨none, 0, 0⟩).root with
    | none =>
        rw [hro] at hcons
        simp only [nodeCountOpt] at hcons
        omega
    | some t =>
        have hnc := nodeCount_add_one_eq_keys_length t
        rw [hro] at hcons hkl
        simp only [nodeCountOpt, keysOpt, List.length_nil] at hcons hkl
        omega

/-- C8: descents are bounded by the word size, and the critical-bit scan on
two distinct valid keys terminates (finds its bit within `W` loop steps) at
an index strictly below `W - 1`. -/
theorem termination_bounds :
    (∀ (W : Nat) (t : CTree), Inv W t → height t ≤ W)
    ∧ (∀ (W x y : Nat), validKey W x → validKey W y → x ≠ y →
        ∃ b, critBitSearch W (x ^^^ y) W 0 = some b ∧ b < W - 1) := by
  constructor
  · exact fun W t hI => inv_height_le W t hI
  · intro W x y hx hy hne
    have h0 : x ^^^ y ≠ 0 := fun h => hne (Nat.xor_eq_zero.mp h)
    have hW : x ^^^ y < 2 ^ W := Nat.xor_lt_two_pow hx.2.2 hy.2.2
    have he : (x ^^^ y).testBit 0 = false := by
      rw [Nat.testBit_xor, Nat.mod_two_eq_zero_iff_testBit_zero.mp hx.2.1,
        Nat.mod_two_eq_zero_iff_testBit_zero.mp hy.2.1]
      rfl
    obtain ⟨h1, h2, h3, h4⟩ := getCritBit_spec W (x ^^^ y) h0 hW he
    exact ⟨getCritBit W (x ^^^ y), h1, by omega⟩

/-- Witness for C8. -/
theorem termination_bounds_witness :
    Inv 64 (CTree.leaf 4) ∧ height (CTree.leaf 4) ≤ 64
    ∧ (validKey 64 4 ∧ validKey 64 6 ∧ (4 : Nat) ≠ 6
       ∧ ∃ b, critBitSearch 64 ((4 : Nat) ^^^ 6) 64 0 = some b ∧ b < 64 - 1) := by
  have hI : Inv 64 (CTree.leaf 4) := show validKey 64 4 by decide
  exact ⟨hI, termination_bounds.1 64 _ hI, by decide, by decide, by decide,
    termination_bounds.2 64 4 6 (by decide) (by decide) (by decide)⟩

/-- C9: frame conditions of the mutators — a successful add stores exactly
the old keys plus the new one, a successful remove exactly the old keys
minus the removed one; membership of every other key is untouched. -/
theorem add_remove_frame (W : Nat) (root : Option CTree) (k : Nat)
    (hR : Reachable W root) (hk : validKey W k) :
    ((critbit_add W root k).1 = true →
      ∀ w, w ∈ keysOpt (critbit_add W root k).2 ↔ w = k ∨ w ∈ keysOpt root)
    ∧ ((critbit_remove W root k).1 = true →
      ∀ w, w ∈ keysOpt (critbit_remove W root k).2 ↔ w ∈ keysOpt root ∧ w ≠ k) := by
  have hI := reachable_inv W root hR
  obtain ⟨-, -, aMem, -, -⟩ := add_preserves W root k hI hk
  obtain ⟨-, -, -, rMem, -⟩ := remove_preserves W root k hI
  exact ⟨fun _ w => aMem w, fun h w => rMem h w⟩

/-- Witness for C9. -/
theorem add_remove_frame_witness :
    Reachable 64 (critbit_add 64 none 4).2 ∧ validKey 64 6
    ∧ (((critbit_add 64 (critbit_add 64 none 4).2 6).1 = true →
        ∀ w, w ∈ keysOpt (critbit_add 64 (critbit_add 64 none 4).2 6).2 ↔
          w = 6 ∨ w ∈ keysOpt (critbit_add 64 none 4).2)
      ∧ ((critbit_remove 64 (critbit_add 64 none 4).2 6).1 = true →
        ∀ w, w ∈ keysOpt (critbit_remove 64 (critbit_add 64 none 4).2 6).2 ↔
          w ∈ keysOpt (critbit_add 64 none 4).2 ∧ w ≠ 6)) := by
  have hR : Reachable 64 (critbit_add 64 none 4).2 :=
    Reachable.add none 4 Reachable.empty (by decide)
  exact ⟨hR, by decide, add_remove_frame 64 _ 6 hR (by decide)⟩

/-- C10: `critbit_foreach` on an empty trie passes the root word 0 to
`_critbit_has_tag`, whose assertion `v != 0` it violates; with assertions
disabled the visitor callback is invoked exactly once, with key 0. -/
theorem foreach_empty_assertion :
    critbit_foreach none = [0] ∧ ¬ has_tag_assert critbit_create_root :=
  ⟨rfl, fun h => h rfl⟩

end Critbit
